import Mathlib

/-!
Verification of the JIT (just-in-time) delivery queue of `queue/jit.go`
(package `queue` of the go-utils repository).

The Go implementation keeps a slice of `JITItem`s sorted by due time.
`Add` appends and re-sorts (with a fast path for chronological appends) and
closes/replaces the `changed` channel when the head entry changed identity.
`Next()` serializes consumers with `nextMu` and loops: pop the head if its
time is already past, otherwise wait on the `changed` channel and/or a timer
firing at the head's due time.  `Destroy()` clears the slice, closes
`changed` and sets it to `nil`; a `nil` `changed` marks the destroyed state.

Shallow-embedding conventions:
* `time.Time` instants are `Int`; `a.Before(b)` is `a < b`.
* A `JITItem` records `ident` (standing for the Go interface identity that
  `first == q.queue[0]` compares), the due `time`, and
  `inner : Option BaseVal`: `some b` when the dynamic type implements the
  unexported `hasItem` interface with `getItem() = b` (every `*jitItem`
  built by `Schedule` does), `none` for a caller item that does not.
* The queue state records the slice and `live : Bool` (`q.changed ≠ nil`).
* Go `interface{}` results of the public `Next()` are `GoVal`; the untyped
  `nil` — both the destroyed sentinel and a `nil` payload — is `GoVal.goNil`.
* `close` of a nil channel panics, so a second `Destroy` panics: `destroyFn`
  returns `none` for that panic.
* `sort.Sort(q.queue)` (Less comparing due times with strict `Before`)
  guarantees a permutation of the slice that is non-decreasing in due time;
  it is modelled by the deterministic `List.insertionSort` under `≤`.
* The blocking loop `jitQueue.next` is embedded as the inductive relation
  `NextExec`, one constructor per control path of one loop iteration, with
  concurrent mutation between lock releases over-approximated by a
  parameter relation `E` and wake-up instants by arbitrary `wake` bounds.
-/

/-- A payload value handed to `Schedule` (or produced by a caller item's
`getItem`).  `bNil` is Go's untyped `nil`. -/
inductive BaseVal where
  | bNil : BaseVal
  | bInt : Int → BaseVal
  deriving DecidableEq

/-- One stored queue element (Go `JITItem` interface value).  `ident` models
the reference identity of the Go interface value, `time` the result of
`Time()`, and `inner` whether (and with what payload) the dynamic type
implements the unexported `hasItem` interface. -/
structure JITItem where
  ident : Nat
  time : Int
  inner : Option BaseVal
  deriving DecidableEq

/-- A Go `interface{}` value as returned by the public `Next()`. -/
inductive GoVal where
  | goNil : GoVal
  | goInt : Int → GoVal
  | goItem : JITItem → GoVal
  deriving DecidableEq

/-- Inclusion of base payloads into Go interface values. -/
def baseToGo : BaseVal → GoVal
  | BaseVal.bNil => GoVal.goNil
  | BaseVal.bInt n => GoVal.goInt n

/-- The mutable state of a `jitQueue`: the stored slice and whether the
queue is live (`changed ≠ nil`).  The two mutexes serialize access and are
implicit in the embedding (operations are modelled as atomic steps). -/
structure QueueState where
  queue : List JITItem
  live : Bool
  deriving DecidableEq

/-- `NewJIT()`: fresh empty live queue. -/
def newJIT : QueueState := ⟨[], true⟩

/-- The `*jitItem` built by `Schedule(i, time)`: it wraps the raw payload,
so it implements `hasItem`.  `id` is the fresh identity of the allocation. -/
def scheduleItem (v : BaseVal) (t : Int) (id : Nat) : JITItem :=
  ⟨id, t, some v⟩

/-- The fast-path test of `jitQueue.add`, evaluated on the slice
`q.queue = prev ++ [i]` right after the append:
`len(q.queue) > 1 && q.queue[len-1].Time().After(q.queue[len-2].Time())`.
`len > 1` holds iff `prev` is non-empty, `q.queue[len-1]` is the appended
item `i`, and `q.queue[len-2]` is the last element of `prev`. -/
def appendedAscending (prev : List JITItem) (i : JITItem) : Bool :=
  match prev.getLast? with
  | some l => decide (l.time < i.time)
  | none => false

/-- `sort.Sort(q.queue)` with `Less i j = s[i].Time().Before(s[j].Time())`:
a permutation of the slice that is non-decreasing in due time, modelled by
the deterministic insertion sort under `≤` on due times. -/
def sortByTime (l : List JITItem) : List JITItem :=
  List.insertionSort (fun a b => a.time ≤ b.time) l

/-- `jitQueue.add` (the body shared by `Add` and `Schedule`, running under
`q.mu`).  Returns the new state together with whether the notification
fired (`close(q.changed)` followed by installing a fresh channel):
destroyed queues return immediately; otherwise the item is appended, the
slice re-sorted unless the append was already chronological, and the
notification is suppressed when the pre-sort head is still the head. -/
def addStep (st : QueueState) (i : JITItem) : QueueState × Bool :=
  if st.live = false then (st, false)
  else if appendedAscending st.queue i then (⟨st.queue ++ [i], st.live⟩, false)
  else if 1 < (sortByTime (st.queue ++ [i])).length ∧
      (st.queue ++ [i]).head? = (sortByTime (st.queue ++ [i])).head? then
    (⟨sortByTime (st.queue ++ [i]), st.live⟩, false)
  else (⟨sortByTime (st.queue ++ [i]), st.live⟩, true)

/-- `jitQueue.Schedule(i, time)`: wrap the payload in a fresh `*jitItem`
(with identity `id`) and `Add` it. -/
def scheduleStep (st : QueueState) (v : BaseVal) (t : Int) (id : Nat) :
    QueueState × Bool :=
  addStep st (scheduleItem v t id)

/-- `jitQueue.Destroy`: clear the slice, close `changed` and set it to
`nil`.  On an already-destroyed queue `close(q.changed)` is a `close` of a
nil channel, which panics: that panic is modelled by `none`. -/
def destroyFn (st : QueueState) : Option QueueState :=
  if st.live then some ⟨[], false⟩ else none

/-- `jitQueue.IsEmpty` / `jitQueue.isEmpty`: `len(q.queue) == 0`. -/
def isEmptyFn (st : QueueState) : Bool :=
  st.queue.length == 0

/-- The unwrapping the public `Next()` applies to the result of the
internal `next()`: `nil` stays `nil`, a result implementing `hasItem` is
replaced by its `getItem()`, anything else is returned as-is. -/
def NextRes : Option JITItem → GoVal
  | none => GoVal.goNil
  | some it =>
    match it.inner with
    | some b => baseToGo b
    | none => GoVal.goItem it

/-- The under-lock immediate branch at the top of one `next()` loop
iteration (destroyed check, then pop-and-return when the head's time is
strictly before now): `some (i, st')` when the branch returns item `i`
leaving state `st'`, `none` when the iteration falls through to waiting. -/
def immediatePop (st : QueueState) (now : Int) :
    Option (JITItem × QueueState) :=
  if st.live = false then none
  else
    match st.queue with
    | [] => none
    | i :: rest => if i.time < now then some (i, ⟨rest, st.live⟩) else none

/-- One complete execution of the blocking loop `jitQueue.next`, from a
call observing state `st` at instant `now` to a return of `res` at instant
`ret` leaving state `st'`.  The first index is the loop-carried Go variable
`var i JITItem` (`none` = still nil).  `E` relates the state at a lock
release to the state at the next lock acquisition, over-approximating
concurrent producers; wake instants are only bounded below (timer wakes not
before the due time, nothing before `now`).  Constructors, one per control
path of an iteration:
* `destroyed` — `q.changed == nil`: return nil.
* `popNow` — head due strictly before now: pop it and return under the lock.
* `waitEmpty` — empty queue, `i` still nil: block on `changed`, loop.
* `waitChanged` — head not yet due, `changed` fires first: loop.
* `waitTimerHit` — head not yet due, timer fires at its due time, the same
  entry is still the head on re-lock: pop it and return.
* `waitTimerMiss` — timer fires but the entry is no longer the head
  (spurious): release the lock and loop.
* `stale…` — same select with the loop-carried `i` from an earlier
  iteration while the queue is observed empty (`i != nil` short-circuits
  the indefinite wait). -/
inductive NextExec (E : QueueState → QueueState → Prop) :
    Option JITItem → QueueState → Int → Option JITItem → QueueState → Int →
    Prop where
  | destroyed {iv : Option JITItem} {st : QueueState} {now : Int} :
      st.live = false →
      NextExec E iv st now none st now
  | popNow {iv : Option JITItem} {st : QueueState} {now : Int} {i : JITItem}
      {rest : List JITItem} :
      st.live = true → st.queue = i :: rest → i.time < now →
      NextExec E iv st now (some i) ⟨rest, st.live⟩ now
  | waitEmpty {st st2 st3 : QueueState} {now wake ret : Int}
      {res : Option JITItem} :
      st.live = true → st.queue = [] → now ≤ wake → E st st2 →
      NextExec E none st2 wake res st3 ret →
      NextExec E none st now res st3 ret
  | waitChanged {iv : Option JITItem} {st st2 st3 : QueueState}
      {now wake ret : Int} {i : JITItem} {rest : List JITItem}
      {res : Option JITItem} :
      st.live = true → st.queue = i :: rest → ¬ i.time < now → now ≤ wake →
      E st st2 →
      NextExec E (some i) st2 wake res st3 ret →
      NextExec E iv st now res st3 ret
  | waitTimerHit {iv : Option JITItem} {st st2 : QueueState}
      {now wake : Int} {i : JITItem} {rest rest2 : List JITItem} :
      st.live = true → st.queue = i :: rest → ¬ i.time < now →
      now ≤ wake → i.time ≤ wake → E st st2 → st2.queue = i :: rest2 →
      NextExec E iv st now (some i) ⟨rest2, st2.live⟩ wake
  | waitTimerMiss {iv : Option JITItem} {st st2 st3 st4 : QueueState}
      {now wake wake2 ret : Int} {i : JITItem} {rest : List JITItem}
      {res : Option JITItem} :
      st.live = true → st.queue = i :: rest → ¬ i.time < now →
      now ≤ wake → i.time ≤ wake → E st st2 → st2.queue.head? ≠ some i →
      E st2 st3 → wake ≤ wake2 →
      NextExec E (some i) st3 wake2 res st4 ret →
      NextExec E iv st now res st4 ret
  | staleChanged {j : JITItem} {st st2 st3 : QueueState} {now wake ret : Int}
      {res : Option JITItem} :
      st.live = true → st.queue = [] → now ≤ wake → E st st2 →
      NextExec E (some j) st2 wake res st3 ret →
      NextExec E (some j) st now res st3 ret
  | staleTimerHit {j : JITItem} {st st2 : QueueState} {now wake : Int}
      {rest2 : List JITItem} :
      st.live = true → st.queue = [] → now ≤ wake → j.time ≤ wake →
      E st st2 → st2.queue = j :: rest2 →
      NextExec E (some j) st now (some j) ⟨rest2, st2.live⟩ wake
  | staleTimerMiss {j : JITItem} {st st2 st3 st4 : QueueState}
      {now wake wake2 ret : Int} {res : Option JITItem} :
      st.live = true → st.queue = [] → now ≤ wake → j.time ≤ wake →
      E st st2 → st2.queue.head? ≠ some j →
      E st2 st3 → wake ≤ wake2 →
      NextExec E (some j) st3 wake2 res st4 ret →
      NextExec E (some j) st now res st4 ret

/-- The no-interference environment: the state is unchanged across every
lock release (single-threaded use of the queue). -/
def EqI : QueueState → QueueState → Prop := fun a b => a = b

/-- Sortedness of the stored slice: adjacent entries have non-decreasing
due times (the invariant maintained by `add` and relied on by `next`). -/
def SortedQ (l : List JITItem) : Prop :=
  List.Chain' (fun a b => a.time ≤ b.time) l

/-- Folding a sequence of `Add` calls over a state (the producer history of
a test run). -/
def applyAdds (items : List JITItem) (st : QueueState) : QueueState :=
  items.foldl (fun s i => (addStep s i).1) st

/-- A sequence of completed `Next()` calls without concurrent producers:
each element records the popped item and the instant its call returned. -/
inductive NextChain : QueueState → List (JITItem × Int) → QueueState → Prop
    where
  | nil {st : QueueState} : NextChain st [] st
  | cons {st st1 st2 : QueueState} {now ret : Int} {i : JITItem}
      {l : List (JITItem × Int)} :
      NextExec EqI none st now (some i) st1 ret →
      NextChain st1 l st2 →
      NextChain st ((i, ret) :: l) st2

/-- One producer-side mutation: an `Add` (also covering `Schedule`, which
is `Add` of a wrapped item) or a successful `Destroy`. -/
inductive ProdStep : QueueState → QueueState → Prop where
  | add {st : QueueState} (i : JITItem) : ProdStep st (addStep st i).1
  | schedule {st : QueueState} (v : BaseVal) (t : Int) (id : Nat) :
      ProdStep st (scheduleStep st v t id).1
  | destroy {st st' : QueueState} :
      destroyFn st = some st' → ProdStep st st'

/-- Interference produced while `next` is blocked: any finite sequence of
producer mutations. -/
def Interf : QueueState → QueueState → Prop :=
  Relation.ReflTransGen ProdStep

/-- One observable operation on the queue: a producer mutation or a
complete `next()` execution (with producer interference while blocked). -/
inductive Step : QueueState → QueueState → Prop where
  | add {st : QueueState} (i : JITItem) : Step st (addStep st i).1
  | schedule {st : QueueState} (v : BaseVal) (t : Int) (id : Nat) :
      Step st (scheduleStep st v t id).1
  | destroy {st st' : QueueState} : destroyFn st = some st' → Step st st'
  | next {st st' : QueueState} (iv : Option JITItem) (now : Int)
      (res : Option JITItem) (ret : Int) :
      NextExec Interf iv st now res st' ret → Step st st'

/-- States reachable from a fresh `NewJIT()` queue by queue operations. -/
def Reachable (st : QueueState) : Prop :=
  Relation.ReflTransGen Step newJIT st

/-- A dead state: destroyed with an empty slice (the state `Destroy`
leaves behind). -/
def Dead (st : QueueState) : Prop :=
  st.queue = [] ∧ st.live = false

/-- One operation step as available to callers after destruction:
`Add`, `Schedule`, or a `Next` call (with arbitrary interference). -/
inductive OpStep : QueueState → QueueState → Prop where
  | add {st : QueueState} (i : JITItem) : OpStep st (addStep st i).1
  | schedule {st : QueueState} (v : BaseVal) (t : Int) (id : Nat) :
      OpStep st (scheduleStep st v t id).1
  | next {st st' : QueueState} (E : QueueState → QueueState → Prop)
      (iv : Option JITItem) (now : Int) (res : Option JITItem) (ret : Int) :
      NextExec E iv st now res st' ret → OpStep st st'

/-- Concrete items used in witnesses. -/
def itA : JITItem := ⟨0, 5, some (BaseVal.bInt 1)⟩

def itB : JITItem := ⟨1, 3, some (BaseVal.bInt 2)⟩

def itEq5 : JITItem := ⟨2, 5, none⟩

def itNilPay : JITItem := ⟨3, 0, some BaseVal.bNil⟩

instance : IsTotal JITItem (fun a b => a.time ≤ b.time) :=
  ⟨fun a b => Int.le_total a.time b.time⟩

instance : IsTrans JITItem (fun a b => a.time ≤ b.time) :=
  ⟨fun _ _ _ h1 h2 => le_trans h1 h2⟩

theorem sortByTime_sortedQ (l : List JITItem) : SortedQ (sortByTime l) :=
  (List.sorted_insertionSort _ l).chain'

theorem sortByTime_length (l : List JITItem) :
    (sortByTime l).length = l.length :=
  (List.perm_insertionSort _ l).length_eq

theorem sortByTime_head_some {l : List JITItem} (h : l ≠ []) :
    ∃ x, (sortByTime l).head? = some x := by
  cases hq : sortByTime l with
  | nil =>
    exfalso
    have hlen := sortByTime_length l
    rw [hq] at hlen
    exact h (List.length_eq_zero.mp hlen.symm)
  | cons a t => exact ⟨a, rfl⟩

theorem appendedAscending_sorted {q : List JITItem} {i : JITItem}
    (hs : SortedQ q) (ha : appendedAscending q i = true) : SortedQ (q ++ [i]) := by
  unfold SortedQ
  rw [List.chain'_append]
  refine ⟨hs, List.chain'_singleton i, ?_⟩
  intro x hx y hy
  unfold appendedAscending at ha
  cases hgl : q.getLast? with
  | none => rw [hgl] at ha; cases ha
  | some l =>
    rw [hgl] at ha
    have hlt : l.time < i.time := of_decide_eq_true ha
    rw [hgl] at hx
    simp only [Option.mem_def, Option.some_inj] at hx
    simp only [List.head?_cons, Option.mem_def, Option.some_inj] at hy
    rw [← hx, ← hy]
    exact le_of_lt hlt

theorem addStep_sorted {st : QueueState} (i : JITItem) (hs : SortedQ st.queue) :
    SortedQ ((addStep st i).1).queue := by
  unfold addStep
  split
  · exact hs
  · split
    · exact appendedAscending_sorted hs (by assumption)
    · split
      · exact sortByTime_sortedQ _
      · exact sortByTime_sortedQ _

/-- On a destroyed queue `next()` observes `q.changed == nil` at the top of
the loop and returns nil at once. -/
theorem nextExec_dead {E : QueueState → QueueState → Prop}
    {iv : Option JITItem} {st : QueueState} {now : Int} {res : Option JITItem}
    {st' : QueueState} {ret : Int}
    (hx : NextExec E iv st now res st' ret) (hdead : st.live = false) :
    res = none ∧ st' = st ∧ ret = now := by
  cases hx <;> simp_all

/-- A nil result of `next()` is only produced by the destroyed branch, so
the final observed state is destroyed. -/
theorem nextExec_none_dead {E : QueueState → QueueState → Prop}
    {iv : Option JITItem} {st : QueueState} {now : Int} {res : Option JITItem}
    {st' : QueueState} {ret : Int}
    (hx : NextExec E iv st now res st' ret) :
    res = none → st'.live = false := by
  induction hx with
  | destroyed h => exact fun _ => h
  | popNow hl hq hlt => intro h; cases h
  | waitEmpty hl hq hw hEs hrec ih => exact ih
  | waitChanged hl hq hnl hw hEs hrec ih => exact ih
  | waitTimerHit hl hq hnl hw hwt hEs hq2 => intro h; cases h
  | waitTimerMiss hl hq hnl hw hwt hEs hne hEs2 hww hrec ih => exact ih
  | staleChanged hl hq hw hEs hrec ih => exact ih
  | staleTimerHit hl hq hw hwt hEs hq2 => intro h; cases h
  | staleTimerMiss hl hq hw hwt hEs hne hEs2 hww hrec ih => exact ih

/-- `next()` preserves sortedness of the slice provided the concurrent
interference does. -/
theorem nextExec_sorted {E : QueueState → QueueState → Prop}
    (hE : ∀ s s', SortedQ s.queue → E s s' → SortedQ s'.queue)
    {iv : Option JITItem} {st : QueueState} {now : Int} {res : Option JITItem}
    {st' : QueueState} {ret : Int}
    (hx : NextExec E iv st now res st' ret) :
    SortedQ st.queue → SortedQ st'.queue := by
  induction hx with
  | destroyed _ => exact id
  | popNow hl hq hlt => intro hs; rw [hq] at hs; exact hs.tail
  | waitEmpty hl hq hw hEs hrec ih => intro hs; exact ih (hE _ _ hs hEs)
  | waitChanged hl hq hnl hw hEs hrec ih => intro hs; exact ih (hE _ _ hs hEs)
  | waitTimerHit hl hq hnl hw hwt hEs hq2 =>
    intro hs
    have h2 := hE _ _ hs hEs
    rw [hq2] at h2
    exact h2.tail
  | waitTimerMiss hl hq hnl hw hwt hEs hne hEs2 hww hrec ih =>
    intro hs; exact ih (hE _ _ (hE _ _ hs hEs) hEs2)
  | staleChanged hl hq hw hEs hrec ih => intro hs; exact ih (hE _ _ hs hEs)
  | staleTimerHit hl hq hw hwt hEs hq2 =>
    intro hs
    have h2 := hE _ _ hs hEs
    rw [hq2] at h2
    exact h2.tail
  | staleTimerMiss hl hq hw hwt hEs hne hEs2 hww hrec ih =>
    intro hs; exact ih (hE _ _ (hE _ _ hs hEs) hEs2)

theorem prodStep_sorted {s s' : QueueState} (h : ProdStep s s')
    (hs : SortedQ s.queue) : SortedQ s'.queue := by
  cases h with
  | add i => exact addStep_sorted i hs
  | schedule v t id => exact addStep_sorted _ hs
  | destroy hd =>
    unfold destroyFn at hd
    split at hd
    · cases hd; exact List.chain'_nil
    · cases hd

theorem interf_sorted {s s' : QueueState} (h : Interf s s')
    (hs : SortedQ s.queue) : SortedQ s'.queue := by
  induction h with
  | refl => exact hs
  | tail _ hstep ih => exact prodStep_sorted hstep ih

/-- Without concurrent producers, a `next()` execution that returns an item
pops exactly the head of the slice. -/
theorem nextExec_eqI_pop {iv : Option JITItem} {st : QueueState} {now : Int}
    {res : Option JITItem} {st' : QueueState} {ret : Int}
    (hx : NextExec EqI iv st now res st' ret) :
    ∀ i, res = some i →
      st.queue.head? = some i ∧ st'.queue = st.queue.tail ∧
        st'.live = st.live := by
  induction hx with
  | destroyed _ => intro i h; cases h
  | popNow hl hq hlt => intro i h; cases h; simp [hq]
  | waitEmpty hl hq hw hEs hrec ih =>
    intro i h
    have hss : _ = _ := hEs
    subst hss
    have h2 := ih i h
    simp [hq] at h2
  | waitChanged hl hq hnl hw hEs hrec ih =>
    intro i h
    have hss : _ = _ := hEs
    subst hss
    exact ih i h
  | waitTimerHit hl hq hnl hw hwt hEs hq2 =>
    intro i h
    cases h
    have hss : _ = _ := hEs
    subst hss
    rw [hq] at hq2
    injection hq2 with _ hr
    simp [hq, hr]
  | waitTimerMiss hl hq hnl hw hwt hEs hne hEs2 hww hrec ih =>
    intro i h
    have hss : _ = _ := hEs
    subst hss
    rw [hq] at hne
    simp at hne
  | staleChanged hl hq hw hEs hrec ih =>
    intro i h
    have hss : _ = _ := hEs
    subst hss
    exact ih i h
  | staleTimerHit hl hq hw hwt hEs hq2 =>
    intro i h
    have hss : _ = _ := hEs
    subst hss
    rw [hq] at hq2
    cases hq2
  | staleTimerMiss hl hq hw hwt hEs hne hEs2 hww hrec ih =>
    intro i h
    have hss : _ = _ := hEs
    subst hss
    have hss2 : _ = _ := hEs2
    subst hss2
    exact ih i h

theorem nextChain_head {st : QueueState} {l : List (JITItem × Int)}
    {st' : QueueState} (hc : NextChain st l st') :
    ∀ p ∈ l.head?, st.queue.head? = some p.1 := by
  cases hc with
  | nil => intro p hp; simp at hp
  | cons hx hc2 =>
    intro p hp
    simp only [List.head?_cons, Option.mem_def, Option.some_inj] at hp
    rw [← hp]
    exact (nextExec_eqI_pop hx _ rfl).1

/-- Uninterfered `Next()` calls on a sorted queue deliver items in
non-decreasing due-time order. -/
theorem nextChain_sorted_times {st : QueueState} {l : List (JITItem × Int)}
    {st' : QueueState} (hc : NextChain st l st') :
    SortedQ st.queue →
      List.Chain' (fun a b : JITItem × Int => a.1.time ≤ b.1.time) l := by
  induction hc with
  | nil => intro _; exact List.chain'_nil
  | cons hx hc2 ih =>
    rename_i stA st1 st2 nowA retA iA lA
    intro hs
    have hpop := nextExec_eqI_pop hx _ rfl
    have hs1 : SortedQ st1.queue := by rw [hpop.2.1]; exact hs.tail
    refine List.chain'_cons'.mpr ⟨?_, ih hs1⟩
    intro p hp
    have hh := nextChain_head hc2 p hp
    rw [hpop.2.1] at hh
    cases hq : stA.queue with
    | nil => rw [hq] at hpop; simp at hpop
    | cons a t =>
      rw [hq] at hpop hh hs
      simp only [List.head?_cons, Option.some_inj] at hpop
      simp only [List.tail_cons] at hh
      have hrel := (List.chain'_cons'.mp hs).1 p.1 hh
      rw [hpop.1] at hrel
      exact hrel

theorem applyAdds_sorted (items : List JITItem) {st : QueueState}
    (hs : SortedQ st.queue) : SortedQ (applyAdds items st).queue := by
  induction items generalizing st with
  | nil => exact hs
  | cons a t ih => exact ih (addStep_sorted a hs)

/-- Claim C1: `Next()` never returns an entry whose due time is strictly in
the future at the instant it returns.  For every execution of the wait loop
`jitQueue.next` — under arbitrary concurrent interference `E` — the return
instant is not before the call instant and any delivered entry has
`i.time ≤ ret`: the immediate-pop branch requires the due time strictly
before the current time and the timer branches wake no earlier than the
due time. -/
theorem next_no_early_delivery {E : QueueState → QueueState → Prop}
    {iv : Option JITItem} {st : QueueState} {now : Int} {res : Option JITItem}
    {st' : QueueState} {ret : Int}
    (hx : NextExec E iv st now res st' ret) :
    now ≤ ret ∧ ∀ i, res = some i → i.time ≤ ret := by
  induction hx with
  | destroyed _ => exact ⟨le_refl _, fun i h => by cases h⟩
  | popNow hl hq hlt =>
    exact ⟨le_refl _, fun i h => by cases h; exact le_of_lt hlt⟩
  | waitEmpty hl hq hw hEs hrec ih => exact ⟨le_trans hw ih.1, ih.2⟩
  | waitChanged hl hq hnl hw hEs hrec ih => exact ⟨le_trans hw ih.1, ih.2⟩
  | waitTimerHit hl hq hnl hw hwt hEs hq2 =>
    exact ⟨hw, fun i h => by cases h; exact hwt⟩
  | waitTimerMiss hl hq hnl hw hwt hEs hne hEs2 hww hrec ih =>
    exact ⟨le_trans hw (le_trans hww ih.1), ih.2⟩
  | staleChanged hl hq hw hEs hrec ih => exact ⟨le_trans hw ih.1, ih.2⟩
  | staleTimerHit hl hq hw hwt hEs hq2 =>
    exact ⟨hw, fun i h => by cases h; exact hwt⟩
  | staleTimerMiss hl hq hw hwt hEs hne hEs2 hww hrec ih =>
    exact ⟨le_trans hw (le_trans hww ih.1), ih.2⟩

theorem next_no_early_delivery_witness : itA.time ≤ 10 := by
  have hx : NextExec EqI none ⟨[itA], true⟩ 10 (some itA) ⟨[], true⟩ 10 :=
    NextExec.popNow rfl rfl (by decide)
  exact (next_no_early_delivery hx).2 itA rfl

/-- Claim C2: for any sequence of `Add`/`Schedule` calls folded over the
fresh queue, a sequence of completed `Next()` calls (no interference while
they run; each entry is popped once due, immediately or after its timer)
returns items in non-decreasing due-time order. -/
theorem jit_delivery_order (items : List JITItem) {l : List (JITItem × Int)}
    {stF : QueueState} (hc : NextChain (applyAdds items newJIT) l stF) :
    List.Chain' (fun a b : JITItem × Int => a.1.time ≤ b.1.time) l :=
  nextChain_sorted_times hc (applyAdds_sorted items List.chain'_nil)

theorem jit_delivery_order_witness :
    List.Chain' (fun a b : JITItem × Int => a.1.time ≤ b.1.time)
      [(itB, 10), (itA, 10)] := by
  have h1 : NextExec EqI none ⟨[itB, itA], true⟩ 10 (some itB)
      ⟨[itA], true⟩ 10 :=
    NextExec.popNow rfl rfl (by decide)
  have h2 : NextExec EqI none ⟨[itA], true⟩ 10 (some itA) ⟨[], true⟩ 10 :=
    NextExec.popNow rfl rfl (by decide)
  have hc : NextChain (applyAdds [itA, itB] newJIT) [(itB, 10), (itA, 10)]
      ⟨[], true⟩ := by
    have happ : applyAdds [itA, itB] newJIT = ⟨[itB, itA], true⟩ := by decide
    rw [happ]
    exact NextChain.cons h1 (NextChain.cons h2 NextChain.nil)
  exact jit_delivery_order [itA, itB] hc

/-- Claim C3 (amended): the immediate-pop branch at the top of the wait
loop fires only when the head's due time is strictly before the current
time (`i.Time().Before(time.Now())`); when the due time is exactly equal to
the current time the immediate branch is not taken, and the entry is
instead delivered through the timer branch of the select (whose wait is
non-positive, so it still returns at the same instant). -/
theorem immediate_pop_strict {st : QueueState} {i : JITItem}
    {rest : List JITItem} {now : Int}
    (hl : st.live = true) (hq : st.queue = i :: rest) :
    (i.time < now →
      immediatePop st now = some (i, ⟨rest, true⟩) ∧
        NextExec EqI none st now (some i) ⟨rest, true⟩ now) ∧
    (i.time = now →
      immediatePop st now = none ∧
        NextExec EqI none st now (some i) ⟨rest, true⟩ now) := by
  constructor
  · intro hlt
    constructor
    · simp [immediatePop, hl, hq, hlt]
    · have hpn : NextExec EqI none st now (some i) ⟨rest, st.live⟩ now :=
        NextExec.popNow hl hq hlt
      rw [hl] at hpn
      exact hpn
  · intro heq
    constructor
    · simp [immediatePop, hl, hq, heq]
    · have h1 : ¬ i.time < now := by rw [heq]; exact lt_irrefl now
      have h2 : i.time ≤ now := le_of_eq heq
      have hth : NextExec EqI none st now (some i) ⟨rest, st.live⟩ now :=
        NextExec.waitTimerHit hl hq h1 (le_refl now) h2 rfl hq
      rw [hl] at hth
      exact hth

theorem immediate_pop_strict_witness :
    immediatePop ⟨[itEq5], true⟩ 6 = some (itEq5, ⟨[], true⟩) ∧
      immediatePop ⟨[itEq5], true⟩ 5 = none := by
  have hl : (⟨[itEq5], true⟩ : QueueState).live = true := rfl
  have hq : (⟨[itEq5], true⟩ : QueueState).queue = itEq5 :: [] := rfl
  exact ⟨((immediate_pop_strict hl hq).1 (by decide)).1,
    ((immediate_pop_strict hl hq).2 (by decide)).1⟩

/-- Claim C3 counterexample: with the head entry due exactly at the current
instant (due time 5, now 5) the head's due time is at-or-before the current
time, yet the immediate-pop branch does not fire (the code compares with
strict `Before`). -/
theorem immediate_pop_cex :
    itEq5.time ≤ 5 ∧ immediatePop ⟨[itEq5], true⟩ 5 = none := by decide

/-- Claim C4 (amended): the internal `next()` returns no entry iff it
observes the queue destroyed (and the public `Next()` maps that to Go
`nil`); a value delivered on a live queue is the payload of the popped
entry, which differs from the empty sentinel provided the entry does not
unwrap to a `nil` payload — a producer that scheduled a `nil` payload gets
it back as `nil`, indistinguishable from the sentinel. -/
theorem next_sentinel_amended {E : QueueState → QueueState → Prop}
    {iv : Option JITItem} {st : QueueState} {now : Int} {res : Option JITItem}
    {st' : QueueState} {ret : Int}
    (hx : NextExec E iv st now res st' ret) :
    (st.live = false → res = none) ∧
    (res = none → st'.live = false ∧ NextRes res = GoVal.goNil) ∧
    (∀ i, res = some i → i.inner ≠ some BaseVal.bNil →
      NextRes res ≠ GoVal.goNil) := by
  refine ⟨?_, ?_, ?_⟩
  · intro hdead; exact (nextExec_dead hx hdead).1
  · intro hn; subst hn; exact ⟨nextExec_none_dead hx rfl, rfl⟩
  · intro i h hni
    subst h
    cases hi : i.inner with
    | none => simp [NextRes, hi]
    | some b =>
      cases b with
      | bNil => exact absurd hi hni
      | bInt n => simp [NextRes, hi, baseToGo]

theorem next_sentinel_amended_witness : NextRes (some itA) ≠ GoVal.goNil := by
  have hx : NextExec EqI none ⟨[itA], true⟩ 10 (some itA) ⟨[], true⟩ 10 :=
    NextExec.popNow rfl rfl (by decide)
  exact (next_sentinel_amended hx).2.2 itA rfl (by decide)

/-- Claim C4 counterexample: on a live queue holding an entry scheduled
with a `nil` payload, the wait loop delivers the entry and the public
`Next()` unwraps it to Go `nil` — the empty sentinel — although the queue
was never destroyed. -/
theorem next_sentinel_cex :
    NextExec EqI none ⟨[itNilPay], true⟩ 5 (some itNilPay) ⟨[], true⟩ 5 ∧
      (⟨[itNilPay], true⟩ : QueueState).live = true ∧
      (⟨[], true⟩ : QueueState).live = true ∧
      NextRes (some itNilPay) = GoVal.goNil :=
  ⟨NextExec.popNow rfl rfl (by decide), rfl, rfl, rfl⟩

/-- Claim C5 (amended): after a first `Destroy()`, every subsequent `Add`,
`Schedule`, `Next` and `IsEmpty` call completes without a panic, degrading
to a no-op or empty result — but a second `Destroy()` does not: it reaches
`close(q.changed)` with `q.changed == nil`, a `close` of a nil channel,
which panics (modelled by `destroyFn` returning `none`). -/
theorem destroyed_ops_amended {st st' : QueueState}
    (hd : destroyFn st = some st') :
    (∀ i, addStep st' i = (st', false)) ∧
    (∀ v t id, scheduleStep st' v t id = (st', false)) ∧
    isEmptyFn st' = true ∧
    (∀ (E : QueueState → QueueState → Prop) iv now res st2 ret,
      NextExec E iv st' now res st2 ret →
        res = none ∧ st2 = st' ∧ ret = now) ∧
    destroyFn st' = none := by
  have hst : st' = ⟨[], false⟩ := by
    unfold destroyFn at hd
    split at hd
    · exact (Option.some_inj.mp hd).symm
    · cases hd
  subst hst
  refine ⟨fun i => rfl, fun v t id => rfl, rfl, ?_, rfl⟩
  intro E iv now res st2 ret hx
  exact nextExec_dead hx rfl

theorem destroyed_ops_amended_witness :
    addStep ⟨[], false⟩ itA = (⟨[], false⟩, false) ∧
      destroyFn ⟨[], false⟩ = none := by
  have hd : destroyFn newJIT = some ⟨[], false⟩ := by decide
  exact ⟨(destroyed_ops_amended hd).1 itA,
    (destroyed_ops_amended hd).2.2.2.2⟩

/-- Claim C5 counterexample: the first `Destroy` on a fresh queue succeeds
and leaves the destroyed state; calling `Destroy` again on that state
panics (`close` of a nil channel), so `Destroy` after `Destroy` does not
complete without a panic. -/
theorem destroy_twice_cex :
    destroyFn newJIT = some ⟨[], false⟩ ∧ destroyFn ⟨[], false⟩ = none := by
  decide

/-- Claim C6: every reachable queue state has its slice sorted ascending by
due time — adjacent entries satisfy `queue[i].time ≤ queue[i+1].time` —
where reachability closes the fresh queue under `Add`/`Schedule`,
`Destroy`, and complete `next()` executions whose interference while
blocked is itself generated by producer operations. -/
theorem reachable_sorted {st : QueueState} (h : Reachable st) :
    SortedQ st.queue := by
  unfold Reachable at h
  induction h with
  | refl => exact List.chain'_nil
  | tail hab hbc ih =>
    cases hbc with
    | add i => exact addStep_sorted i ih
    | schedule v t id => exact addStep_sorted _ ih
    | destroy hd =>
      unfold destroyFn at hd
      split at hd
      · cases hd; exact List.chain'_nil
      · cases hd
    | next iv now res ret hx =>
      exact nextExec_sorted (fun s s' hs hi => interf_sorted hi hs) hx ih

theorem reachable_sorted_witness :
    SortedQ ((addStep (addStep newJIT itA).1 itB).1.queue) := by
  have h : Reachable (addStep (addStep newJIT itA).1 itB).1 :=
    Relation.ReflTransGen.tail
      (Relation.ReflTransGen.tail Relation.ReflTransGen.refl (Step.add itA))
      (Step.add itB)
  exact reachable_sorted h

/-- Claim C7: an `Add` on a live queue fires the change notification
exactly once iff the entry at position 0 after the insertion differs (by
identity) from the entry at position 0 before it — including the case of a
previously-empty queue — and fires it zero times otherwise. -/
theorem add_notify_iff_head_changed {st : QueueState} (i : JITItem)
    (hl : st.live = true) :
    (addStep st i).2 = true ↔
      (addStep st i).1.queue.head? ≠ st.queue.head? := by
  have hl' : ¬ st.live = false := by simp [hl]
  by_cases hasc : appendedAscending st.queue i = true
  · have hq : st.queue ≠ [] := by
      intro h
      unfold appendedAscending at hasc
      rw [h] at hasc
      simp at hasc
    obtain ⟨a, t, hat⟩ := List.exists_cons_of_ne_nil hq
    simp only [addStep, if_neg hl', if_pos hasc]
    rw [hat]
    simp
  · have hasc' : ¬ appendedAscending st.queue i = true := hasc
    cases hst : st.queue with
    | nil =>
      rw [hst] at hasc'
      simp [addStep, hl', hasc', hst, sortByTime, List.insertionSort,
        List.orderedInsert]
    | cons a t =>
      rw [hst] at hasc'
      have h2 : 1 < (sortByTime ((a :: t) ++ [i])).length := by
        rw [sortByTime_length]
        simp [List.length_append]
      simp only [addStep, if_neg hl', hst]
      rw [if_neg hasc']
      by_cases hc :
          ((a :: t) ++ [i]).head? = (sortByTime ((a :: t) ++ [i])).head?
      · rw [if_pos ⟨h2, hc⟩]
        have heq : (sortByTime ((a :: t) ++ [i])).head? = (a :: t).head? := by
          rw [← hc]; simp
        rw [List.cons_append] at heq
        simp [heq]
      · rw [if_neg (fun hand => hc hand.2)]
        have hne : (sortByTime ((a :: t) ++ [i])).head? ≠ (a :: t).head? := by
          intro h
          apply hc
          rw [h]
          simp
        rw [List.cons_append] at hne
        simp only [List.head?_cons] at hne
        simp [hne]

theorem add_notify_iff_head_changed_witness :
    (addStep newJIT itA).2 = true ↔
      (addStep newJIT itA).1.queue.head? ≠ newJIT.queue.head? :=
  add_notify_iff_head_changed itA rfl

/-- Claim C8: `Add` (and `Schedule`, which goes through `Add`) on a
destroyed queue is a silent no-op — the state is returned unchanged, no
notification fires, and there is no error channel at all. -/
theorem add_destroyed_noop {st : QueueState} (i : JITItem)
    (hdead : st.live = false) :
    addStep st i = (st, false) ∧
      ∀ v t id, scheduleStep st v t id = (st, false) := by
  constructor
  · unfold addStep; rw [if_pos hdead]
  · intro v t id; unfold scheduleStep addStep; rw [if_pos hdead]

theorem add_destroyed_noop_witness :
    addStep ⟨[], false⟩ itA = (⟨[], false⟩, false) ∧
      scheduleStep ⟨[], false⟩ (BaseVal.bInt 9) 4 7 = (⟨[], false⟩, false) := by
  have hdead : (⟨[], false⟩ : QueueState).live = false := rfl
  exact ⟨(add_destroyed_noop itA hdead).1,
    (add_destroyed_noop itA hdead).2 (BaseVal.bInt 9) 4 7⟩

/-- Claim C9: the public `Next()` unwraps exactly the entries whose dynamic
type implements the unexported `hasItem` interface: an entry built by
`Schedule(payload, t)` (a `*jitItem`) comes back as the raw payload, a
caller's own `JITItem` that does not implement `hasItem` comes back as the
item itself, and a caller item that does implement it is unwrapped to its
`getItem()` payload. -/
theorem next_unwraps_schedule (v : BaseVal) (t : Int) (id : Nat)
    (it : JITItem) :
    NextRes (some (scheduleItem v t id)) = baseToGo v ∧
    (it.inner = none → NextRes (some it) = GoVal.goItem it) ∧
    (∀ b, it.inner = some b → NextRes (some it) = baseToGo b) := by
  refine ⟨rfl, ?_, ?_⟩
  · intro h; simp [NextRes, h]
  · intro b h; simp [NextRes, h]

theorem next_unwraps_schedule_witness :
    NextRes (some (scheduleItem (BaseVal.bInt 7) 2 9)) = GoVal.goInt 7 ∧
      NextRes (some itEq5) = GoVal.goItem itEq5 := by
  have h := next_unwraps_schedule (BaseVal.bInt 7) 2 9 itEq5
  exact ⟨h.1, h.2.1 rfl⟩

/-- Claim C10: a destroyed queue is permanently empty: `Destroy` leaves the
dead state (empty slice, retired channel), `IsEmpty` reports true there,
and any further sequence of `Add`, `Schedule` or `Next` calls keeps the
state dead and empty, since none of them can insert into a destroyed
queue. -/
theorem destroyed_permanently_empty {st st' : QueueState}
    (hd : destroyFn st = some st') :
    Dead st' ∧ isEmptyFn st' = true ∧
    ∀ s2, Relation.ReflTransGen OpStep st' s2 →
      Dead s2 ∧ isEmptyFn s2 = true := by
  have hst : st' = ⟨[], false⟩ := by
    unfold destroyFn at hd
    split at hd
    · exact (Option.some_inj.mp hd).symm
    · cases hd
  subst hst
  have hpres : ∀ a b : QueueState, Dead a → OpStep a b → Dead b := by
    intro a b hda hstep
    cases hstep with
    | add i =>
      have hnoop : addStep a i = (a, false) := by
        unfold addStep; rw [if_pos hda.2]
      rw [hnoop]; exact hda
    | schedule v t id =>
      have hnoop : scheduleStep a v t id = (a, false) := by
        unfold scheduleStep addStep; rw [if_pos hda.2]
      rw [hnoop]; exact hda
    | next E iv now res ret hx =>
      have h2 := nextExec_dead hx hda.2
      rw [h2.2.1]; exact hda
  refine ⟨⟨rfl, rfl⟩, rfl, ?_⟩
  intro s2 hreach
  have hdead2 : Dead s2 := by
    induction hreach with
    | refl => exact ⟨rfl, rfl⟩
    | tail hab hbc ih => exact hpres _ _ ih hbc
  exact ⟨hdead2, by simp [isEmptyFn, hdead2.1]⟩

theorem destroyed_permanently_empty_witness :
    isEmptyFn ⟨[], false⟩ = true ∧ Dead (addStep ⟨[], false⟩ itA).1 := by
  have hd : destroyFn ⟨[itA], true⟩ = some ⟨[], false⟩ := by decide
  have h := destroyed_permanently_empty hd
  exact ⟨h.2.1,
    (h.2.2 _ (Relation.ReflTransGen.single (OpStep.add itA))).1⟩

example : addStep newJIT itA = (⟨[itA], true⟩, true) := by decide
example : applyAdds [itA, itB] newJIT = (⟨[itB, itA], true⟩ : QueueState) := by
  decide
example : immediatePop ⟨[itEq5], true⟩ 5 = none := by decide
example : immediatePop ⟨[itEq5], true⟩ 6 = some (itEq5, ⟨[], true⟩) := by
  decide
example : destroyFn newJIT = some ⟨[], false⟩ ∧ destroyFn ⟨[], false⟩ = none :=
  by decide
example : NextRes (some itNilPay) = GoVal.goNil := by decide
example : NextRes (some itEq5) = GoVal.goItem itEq5 := by decide
